import Mathlib

set_option maxRecDepth 10000

/-!
Verification of the heap-snapshot persistence core of Espruino
(`src/jswrap_flash.c`): the run-length codec `rle_encode` / `rle_decode`,
the flash write callback `jsfSaveToFlash_writecb`, and the save/load
orchestrators `jsfSaveToFlash` / `jsfLoadFromFlash` (flash backend,
`#ifndef LINUX` branches).

Modelling conventions: bytes are `Nat` values below 256, 32-bit machine
words are `Nat` values below `2 ^ 32` (with explicit `% 2 ^ 32` where the
C code truncates), and C `int` variables that can go negative (`lastCh`,
the pull-callback result) are `Int`.  The callback-driven byte streams of
the C code are modelled as Lean lists processed in order: the push
callback of `rle_encode` corresponds to emitting one list element, and
the pull callback of `rle_decode` corresponds to consuming one list
element, with an exhausted list behaving like the negative end-of-stream
return value of `jsfLoadFromFlash_readcb`.
-/

/-- Length of the maximal leading run of bytes equal to `ch` in a list.
This models the count computed by the inner scanning loop of `rle_encode`
(`while (dataLen && lastCh==*data && cnt<255) { data++; dataLen--; cnt++; }`)
before the cap `cnt < 255` is applied: the loop stops at the first byte
different from `ch`, at the end of the data, or at 255. -/
def runLen (ch : Nat) : List Nat → Nat
  | [] => 0
  | x :: xs => if x = ch then runLen ch xs + 1 else 0

/-- The main loop of `rle_encode` (src/jswrap_flash.c lines 158-175) with
the callback replaced by list emission.  `lastCh` is the C `int lastCh`
(initially `-1`, "not a valid char").  For each input byte `ch` the loop
emits `ch`; if `ch` equals `lastCh` it additionally consumes up to 255
further copies of `ch` from the input and emits their count. -/
def rle_encode_loop : List Nat → Int → List Nat
  | [], _ => []
  | ch :: rest, lastCh =>
    if (ch : Int) = lastCh then
      ch :: min (runLen ch rest) 255 ::
        rle_encode_loop (rest.drop (min (runLen ch rest) 255)) ch
    else
      ch :: rle_encode_loop rest ch
termination_by l _ => l.length
decreasing_by
  · simp only [List.length_drop, List.length_cons]
    omega
  · simp only [List.length_cons]
    omega

/-- The value `rle_encode data` is the byte sequence pushed to the callback by
`rle_encode(data, dataLen, callback, cbdata)`, in order.  The C code
starts with `int lastCh = -1` ("not a valid char"). -/
def rle_encode (data : List Nat) : List Nat :=
  rle_encode_loop data (-1)

/-- The main loop of `rle_decode` (src/jswrap_flash.c lines 178-192) with
the pull callback replaced by a list of `Int` results, consumed from the
front; an exhausted list stands for the callback returning a negative
end-of-stream value from then on (which is what `jsfLoadFromFlash_readcb`
does once its cursor reaches the end address).  A pulled `ch < 0` stops
the loop.  Otherwise `(unsigned char)ch` (i.e. `ch.toNat % 256`) is
written to the output; if `ch` equals the previous `lastCh` one more
value is pulled as a repeat count `cnt` and the byte is written `cnt`
further times (`while (cnt-->0)`, hence zero times for `cnt ≤ 0`). -/
def rle_decode_loop : List Int → Int → List Nat
  | [], _ => []
  | ch :: rest, lastCh =>
    if ch < 0 then []
    else if ch = lastCh then
      match rest with
      | [] => [ch.toNat % 256]
      | cnt :: rest2 =>
          ch.toNat % 256 ::
            (List.replicate cnt.toNat (ch.toNat % 256) ++ rle_decode_loop rest2 ch)
    else ch.toNat % 256 :: rle_decode_loop rest ch

/-- The value `rle_decode input` is the byte sequence written to the output array by
`rle_decode(callback, cbdata, data)` when the successive callback results
are the elements of `input`, followed by negative end-of-stream values.
The C code starts with `int lastCh = -256` ("not a valid char"). -/
def rle_decode (input : List Int) : List Nat :=
  rle_decode_loop input (-256)

/-! ## Basic facts about the encoder scanning loop -/

lemma runLen_le (ch : Nat) (l : List Nat) : runLen ch l ≤ l.length := by
  induction l with
  | nil => simp [runLen]
  | cons x xs ih =>
    simp only [runLen, List.length_cons]
    split <;> omega

lemma take_of_le_runLen (ch : Nat) :
    ∀ (l : List Nat) (n : Nat), n ≤ runLen ch l → l.take n = List.replicate n ch := by
  intro l
  induction l with
  | nil =>
    intro n h
    simp only [runLen, Nat.le_zero] at h
    subst h
    simp
  | cons x xs ih =>
    intro n h
    match n with
    | 0 => simp
    | n + 1 =>
      simp only [runLen] at h
      by_cases hx : x = ch
      · rw [if_pos hx] at h
        have hn : n ≤ runLen ch xs := by omega
        simp [hx, List.replicate_succ, ih n hn]
      · rw [if_neg hx] at h
        omega

/-- View a list of bytes as a list of pull-callback results: each byte is
returned as a nonnegative `int`, exactly as `jsfLoadFromFlash_readcb`
returns `(unsigned char data)`. -/
def intStream (l : List Nat) : List Int :=
  l.map (fun k => (k : Int))

lemma intStream_cons (a : Nat) (l : List Nat) :
    intStream (a :: l) = (a : Int) :: intStream l := rfl

/-! ## Unfolding lemmas for the decoder loop

The equation lemmas Lean generates for `rle_decode_loop` are keyed on the
constructor shape of the whole input list, so we restate the two branches
of the loop body in a form usable when only the head of the list is
known. -/

lemma rle_decode_loop_cons_ne (ch : Int) (rest : List Int) (lastCh : Int)
    (h0 : 0 ≤ ch) (hne : ch ≠ lastCh) :
    rle_decode_loop (ch :: rest) lastCh = ch.toNat % 256 :: rle_decode_loop rest ch := by
  cases rest with
  | nil =>
    rw [rle_decode_loop.eq_2, if_neg (Int.not_lt.mpr h0), if_neg hne]
  | cons cnt rest2 =>
    rw [rle_decode_loop.eq_3, if_neg (Int.not_lt.mpr h0), if_neg hne]

lemma rle_decode_loop_cons_eq (ch cnt : Int) (rest2 : List Int) (lastCh : Int)
    (h0 : 0 ≤ ch) (heq : ch = lastCh) :
    rle_decode_loop (ch :: cnt :: rest2) lastCh =
      ch.toNat % 256 ::
        (List.replicate cnt.toNat (ch.toNat % 256) ++ rle_decode_loop rest2 ch) := by
  rw [rle_decode_loop.eq_3, if_neg (Int.not_lt.mpr h0), if_pos heq]

/-! ## Round-trip of the codec -/

lemma rle_roundtrip_aux :
    ∀ (N : Nat) (s : List Nat), s.length ≤ N → (∀ x ∈ s, x < 256) →
      ∀ l₁ l₂ : Int, (∀ b : Nat, b < 256 → ((b : Int) = l₁ ↔ (b : Int) = l₂)) →
      rle_decode_loop (intStream (rle_encode_loop s l₁) ++ [-1]) l₂ = s := by
  intro N
  induction N with
  | zero =>
    intro s hs _ l₁ l₂ _
    have hnil : s = [] := List.eq_nil_of_length_eq_zero (Nat.le_zero.mp hs)
    subst hnil
    simp [rle_encode_loop, rle_decode_loop]
  | succ N ih =>
    intro s hs hb l₁ l₂ hagree
    match s with
    | [] => simp [rle_encode_loop, rle_decode_loop]
    | ch :: rest =>
      have hch : ch < 256 := hb ch (List.mem_cons_self _ _)
      have hchm : ch % 256 = ch := Nat.mod_eq_of_lt hch
      by_cases h1 : (ch : Int) = l₁
      · -- the escape branch: a count byte follows the literal
        have h2 : (ch : Int) = l₂ := (hagree ch hch).mp h1
        have henc : rle_encode_loop (ch :: rest) l₁ =
            ch :: min (runLen ch rest) 255 ::
              rle_encode_loop (rest.drop (min (runLen ch rest) 255)) ch := by
          rw [rle_encode_loop, if_pos h1]
        have htail : rle_decode_loop
            (intStream (rle_encode_loop (rest.drop (min (runLen ch rest) 255)) ch) ++ [-1])
            ch = rest.drop (min (runLen ch rest) 255) := by
          refine ih _ ?_ ?_ ch ch (fun b _ => Iff.rfl)
          · have := List.length_drop (min (runLen ch rest) 255) rest
            simp only [List.length_cons] at hs
            omega
          · intro x hx
            exact hb x (List.mem_cons_of_mem _ (List.mem_of_mem_drop hx))
        rw [henc]
        simp only [intStream_cons, List.cons_append]
        rw [rle_decode_loop_cons_eq _ _ _ _ (by omega) h2]
        simp only [Int.toNat_natCast, hchm, htail]
        have hrep : List.replicate (min (runLen ch rest) 255) ch =
            rest.take (min (runLen ch rest) 255) :=
          (take_of_le_runLen ch rest _ (Nat.min_le_left _ _)).symm
        simp only [hrep, List.cons.injEq, true_and]
        exact List.take_append_drop _ rest
      · -- the literal branch
        have h2 : (ch : Int) ≠ l₂ := fun hc => h1 ((hagree ch hch).mpr hc)
        have henc : rle_encode_loop (ch :: rest) l₁ = ch :: rle_encode_loop rest ch := by
          rw [rle_encode_loop, if_neg h1]
        have htail : rle_decode_loop
            (intStream (rle_encode_loop rest ch) ++ [-1]) ch = rest := by
          refine ih _ ?_ ?_ ch ch (fun b _ => Iff.rfl)
          · simp only [List.length_cons] at hs
            omega
          · intro x hx
            exact hb x (List.mem_cons_of_mem _ hx)
        rw [henc]
        simp only [intStream_cons, List.cons_append]
        rw [rle_decode_loop_cons_ne _ _ _ (by omega) h2]
        simp only [Int.toNat_natCast, hchm, htail]

/-- C1: Round-trip of the RLE codec.  For every byte sequence `S` (each
element below 256, any length including empty), encoding `S` with
`rle_encode` and feeding the emitted byte stream into `rle_decode` — the
pull callback returning each emitted byte in order and then a negative
end-of-stream value — reproduces exactly `S`. -/
theorem rle_decode_encode_roundtrip (S : List Nat) (h : ∀ x ∈ S, x < 256) :
    rle_decode (intStream (rle_encode S) ++ [-1]) = S := by
  refine rle_roundtrip_aux S.length S le_rfl h (-1) (-256) ?_
  intro b _
  constructor
  · intro hb
    exfalso
    omega
  · intro hb
    exfalso
    omega

/-- Witness for C1 at the concrete byte sequence of the worked example in
the specification. -/
theorem rle_decode_encode_roundtrip_witness :
    rle_decode (intStream (rle_encode [65, 65, 65, 65, 65, 66]) ++ [-1]) =
      [65, 65, 65, 65, 65, 66] :=
  rle_decode_encode_roundtrip [65, 65, 65, 65, 65, 66] (by decide)

/-- C6, counterexample: `rle_encode` applied to
`[0x41,0x41,0x41,0x41,0x41,0x42]` does not emit
`[0x41,0x41,0x03,0x42,0x00]`: since `0x42` differs from the previous
literal `0x41`, no trailing count byte is emitted for it. -/
theorem rle_encode_example_cex :
    rle_encode [0x41, 0x41, 0x41, 0x41, 0x41, 0x42] ≠ [0x41, 0x41, 0x03, 0x42, 0x00] := by
  simp [rle_encode, rle_encode_loop, runLen]

/-- C6, amended: `rle_encode` applied to the six input bytes
`[0x41,0x41,0x41,0x41,0x41,0x42]` emits exactly the four output bytes
`[0x41,0x41,0x03,0x42]` — first `0x41` literal, second `0x41` triggers
the escape, count `3` for the remaining repeats, then the `0x42` literal
with no count byte. -/
theorem rle_encode_example :
    rle_encode [0x41, 0x41, 0x41, 0x41, 0x41, 0x42] = [0x41, 0x41, 0x03, 0x42] := by
  simp [rle_encode, rle_encode_loop, runLen]

/-! ## Worst-case expansion of the encoder -/

lemma rle_encode_length_aux :
    ∀ (N : Nat) (s : List Nat), s.length ≤ N → ∀ last : Int,
      ((∀ x ∈ s.head?, (x : Int) ≠ last) →
        (rle_encode_loop s last).length ≤ s.length + s.length / 2) ∧
      (rle_encode_loop s last).length ≤ s.length + (s.length + 1) / 2 := by
  intro N
  induction N with
  | zero =>
    intro s hs last
    have hnil : s = [] := List.eq_nil_of_length_eq_zero (Nat.le_zero.mp hs)
    subst hnil
    simp [rle_encode_loop]
  | succ N ih =>
    intro s hs last
    match s with
    | [] => simp [rle_encode_loop]
    | ch :: rest =>
      simp only [List.length_cons] at hs ⊢
      by_cases h1 : (ch : Int) = last
      · -- the escape branch emits two bytes and may consume a run
        have henc : rle_encode_loop (ch :: rest) last =
            ch :: min (runLen ch rest) 255 ::
              rle_encode_loop (rest.drop (min (runLen ch rest) 255)) ch := by
          rw [rle_encode_loop, if_pos h1]
        have hgen : (rle_encode_loop (ch :: rest) last).length ≤
            rest.length + 1 + (rest.length + 1 + 1) / 2 := by
          rw [henc]
          simp only [List.length_cons]
          by_cases hc : min (runLen ch rest) 255 = 0
          · -- a zero count: the next input byte (if any) differs from `ch`
            have hrl : runLen ch rest = 0 := by
              rcases Nat.min_eq_zero_iff.mp hc with h | h
              · exact h
              · omega
            have hhd2 : ∀ x ∈ rest.head?, (x : Int) ≠ (ch : Int) := by
              cases rest with
              | nil => intro x hx; exact absurd hx (by simp)
              | cons y ys =>
                intro x hx
                have hxy : x = y := by
                  simpa using hx.symm
                subst hxy
                simp only [runLen] at hrl
                by_cases hy : x = ch
                · rw [if_pos hy] at hrl
                  omega
                · intro hcast
                  exact hy (by exact_mod_cast hcast)
            have hb1 := (ih rest (by omega) ch).1 hhd2
            rw [hc]
            simp only [List.drop_zero]
            omega
          · -- a positive count consumes that many further input bytes
            have hcnt1 : 1 ≤ min (runLen ch rest) 255 := Nat.one_le_iff_ne_zero.mpr hc
            have hrle := runLen_le ch rest
            have hdl : (rest.drop (min (runLen ch rest) 255)).length =
                rest.length - min (runLen ch rest) 255 := List.length_drop _ _
            have hb2 := (ih (rest.drop (min (runLen ch rest) 255)) (by rw [hdl]; omega) ch).2
            rw [hdl] at hb2
            omega
        constructor
        · intro hhd
          exact absurd h1 (hhd ch rfl)
        · exact hgen
      · -- the literal branch emits one byte
        have henc : rle_encode_loop (ch :: rest) last = ch :: rle_encode_loop rest ch := by
          rw [rle_encode_loop, if_neg h1]
        have hb2 := (ih rest (by omega) ch).2
        constructor
        · intro _
          rw [henc]
          simp only [List.length_cons]
          omega
        · rw [henc]
          simp only [List.length_cons]
          omega

/-- C10: For every input byte sequence of length `n`, `rle_encode` invokes
its push callback at most `n + n / 2` times; equivalently, the emitted
byte list is never longer than `1.5` times the input.  (Every count byte
is emitted immediately after two equal consecutive bytes were consumed,
so each extra output byte is paid for by at least two input bytes.) -/
theorem rle_encode_length_le (S : List Nat) :
    (rle_encode S).length ≤ S.length + S.length / 2 := by
  refine (rle_encode_length_aux S.length S le_rfl (-1)).1 ?_
  intro x _
  omega

/-! ## Exact cost of an embedded run -/

lemma runLen_replicate_append (b : Nat) :
    ∀ (m : Nat) (post : List Nat), (∀ y ∈ post.head?, y ≠ b) →
      runLen b (List.replicate m b ++ post) = m := by
  intro m
  induction m with
  | zero =>
    intro post hpost
    simp only [List.replicate, List.nil_append]
    cases post with
    | nil => simp [runLen]
    | cons y ys =>
      have hy : y ≠ b := hpost y rfl
      simp [runLen, hy]
  | succ m ih =>
    intro post hpost
    rw [List.replicate_succ, List.cons_append]
    simp [runLen, ih post hpost]

/-- On input with no two adjacent equal bytes (and a first byte different
from `lastCh`), the encoder loop copies its input unchanged: every byte is
a literal and no count byte is ever emitted. -/
lemma rle_encode_loop_of_chain (l : List Nat) :
    ∀ last : Int, List.Chain' (· ≠ ·) l → (∀ x ∈ l.head?, (x : Int) ≠ last) →
      rle_encode_loop l last = l := by
  induction l with
  | nil => intro last _ _; simp [rle_encode_loop]
  | cons x xs ih =>
    intro last hch hhd
    have hx : (x : Int) ≠ last := hhd x rfl
    rw [rle_encode_loop, if_neg hx]
    obtain ⟨hhd2, hch2⟩ := List.chain'_cons'.mp hch
    rw [ih x hch2 ?_]
    intro y hy hc
    exact (hhd2 y hy) (by exact_mod_cast hc.symm)

lemma rle_encode_loop_chain_post (b : Nat) (post : List Nat)
    (hch : List.Chain' (· ≠ ·) (b :: post)) :
    rle_encode_loop post (b : Int) = post := by
  obtain ⟨hhd, hch2⟩ := List.chain'_cons'.mp hch
  refine rle_encode_loop_of_chain post (b : Int) hch2 ?_
  intro y hy hc
  exact (hhd y hy) (by exact_mod_cast hc.symm)

/-- Cost of a run at the head of the remaining input, given that the
previous literal equals the run byte: a run of `m` further copies of `b`
followed by a non-`b` suffix with no adjacent duplicates encodes to
`2 * ceil((m+1)/256)` bytes for the run part plus the suffix verbatim. -/
lemma rle_encode_loop_run_post :
    ∀ (N m b : Nat) (post : List Nat), m ≤ N →
      List.Chain' (· ≠ ·) (b :: post) →
      (rle_encode_loop (List.replicate m b ++ post) (b : Int)).length =
        2 * ((m + 255) / 256) + post.length := by
  intro N
  induction N with
  | zero =>
    intro m b post hm hch
    have hm0 : m = 0 := Nat.le_zero.mp hm
    subst hm0
    simp only [List.replicate, List.nil_append]
    rw [rle_encode_loop_chain_post b post hch]
    omega
  | succ N ih =>
    intro m b post hm hch
    match m with
    | 0 =>
      simp only [List.replicate, List.nil_append]
      rw [rle_encode_loop_chain_post b post hch]
      omega
    | m + 1 =>
      have hhdpost : ∀ y ∈ post.head?, y ≠ b := by
        obtain ⟨hhd, _⟩ := List.chain'_cons'.mp hch
        exact fun y hy hc => (hhd y hy) hc.symm
      rw [List.replicate_succ, List.cons_append]
      rw [rle_encode_loop, if_pos rfl]
      rw [runLen_replicate_append b m post hhdpost]
      have hminle : min m 255 ≤ m := Nat.min_le_left _ _
      have hdrop : (List.replicate m b ++ post).drop (min m 255) =
          List.replicate (m - min m 255) b ++ post := by
        rw [List.drop_append_of_le_length (by simp [hminle]), List.drop_replicate]
      rw [hdrop]
      simp only [List.length_cons]
      by_cases hm255 : m ≤ 255
      · rw [min_eq_left hm255]
        have h0 : m - m = 0 := by omega
        rw [h0]
        simp only [List.replicate, List.nil_append]
        rw [rle_encode_loop_chain_post b post hch]
        have hdiv : (m + 1 + 255) / 256 = 1 := by omega
        rw [hdiv]
        omega
      · rw [min_eq_right (by omega : (255 : Nat) ≤ m)]
        rw [ih (m - 255) b post (by omega) hch]
        omega

/-- The `int lastCh` value in force after the encoder has processed a
prefix `pre`: the last element of `pre`, or the initial value if `pre` is
empty. -/
def lastD (pre : List Nat) (last : Int) : Int :=
  match pre.getLast? with
  | some p => (p : Int)
  | none => last

lemma lastD_cons_cons (p q : Nat) (qs : List Nat) (last : Int) :
    lastD (p :: q :: qs) last = lastD (q :: qs) last := by
  simp only [lastD, List.getLast?_cons_cons]

lemma lastD_cons_irrel (q : Nat) (qs : List Nat) :
    ∀ l₁ l₂ : Int, lastD (q :: qs) l₁ = lastD (q :: qs) l₂ := by
  induction qs generalizing q with
  | nil => intro l₁ l₂; simp [lastD]
  | cons r rs ih =>
    intro l₁ l₂
    rw [lastD_cons_cons, lastD_cons_cons, ih r]

/-- Processing a prefix with no two adjacent equal bytes leaves it
verbatim in the output and hands the rest of the input to the loop with
`lastCh` equal to the last prefix byte. -/
lemma rle_encode_loop_append_pre :
    ∀ (pre X : List Nat) (last : Int),
      List.Chain' (· ≠ ·) pre → (∀ x ∈ pre.head?, (x : Int) ≠ last) →
      rle_encode_loop (pre ++ X) last = pre ++ rle_encode_loop X (lastD pre last) := by
  intro pre
  induction pre with
  | nil => intro X last _ _; simp [lastD]
  | cons p pre' ih =>
    intro X last hch hhd
    have hp : (p : Int) ≠ last := hhd p rfl
    rw [List.cons_append, rle_encode_loop, if_neg hp]
    obtain ⟨hhd2, hch2⟩ := List.chain'_cons'.mp hch
    rw [ih X p hch2 ?_]
    · cases pre' with
      | nil => simp [lastD]
      | cons q qs =>
        rw [lastD_cons_cons, lastD_cons_irrel q qs (p : Int) last]
        rfl
    · intro y hy hc
      exact (hhd2 y hy) (by exact_mod_cast hc.symm)

/-- C2, counterexample: the byte sequence `[1, 7, 7, 2]` embeds a run of
`n = 2` equal bytes (`7, 7`) in otherwise non-repeating data.  The claim
predicts `2 + ceil(max(0, n-2)/255) = 2` output bytes for the run, hence
`4` output bytes in total; `rle_encode` actually emits `[1, 7, 7, 0, 2]`,
five bytes, because the second byte of the pair always emits an explicit
count byte (here `0`). -/
theorem run_cost_cex :
    (rle_encode [1, 7, 7, 2]).length ≠ 2 + (2 + (max 0 (2 - 2) + 254) / 255) := by
  simp [rle_encode, rle_encode_loop, runLen]

/-- C2, amended: for a run of `n ≥ 2` identical bytes `b` embedded in
otherwise non-repeating data (a prefix and suffix with no two adjacent
equal bytes, adjacent to the run only through bytes different from `b`),
the output bytes contributed by the run number exactly
`1 + 2 * ceil((n-1)/256)` — not `2 + ceil(max(0, n-2)/255)`: the second
byte of a pair always emits an explicit count byte, and each chained
continuation after 256 consumed run bytes emits one further literal and
count pair. -/
theorem run_cost (pre post : List Nat) (n b : Nat) (hn : 2 ≤ n)
    (hpre : List.Chain' (· ≠ ·) (pre ++ [b]))
    (hpost : List.Chain' (· ≠ ·) (b :: post)) :
    (rle_encode (pre ++ (List.replicate n b ++ post))).length =
      pre.length + (1 + 2 * ((n - 1 + 255) / 256)) + post.length := by
  obtain ⟨hchpre, _, hlast⟩ := List.chain'_append.mp hpre
  unfold rle_encode
  rw [rle_encode_loop_append_pre pre _ (-1) hchpre (by intro x _; omega)]
  have hbD : (b : Int) ≠ lastD pre (-1) := by
    cases hplast : pre.getLast? with
    | none =>
      simp only [lastD, hplast]
      omega
    | some p =>
      have hpb : p ≠ b := hlast p hplast b rfl
      simp only [lastD, hplast]
      intro hc
      exact hpb (by exact_mod_cast hc.symm)
  obtain ⟨n', rfl⟩ : ∃ n', n = n' + 1 := ⟨n - 1, by omega⟩
  rw [List.replicate_succ, List.cons_append, rle_encode_loop, if_neg hbD]
  simp only [List.length_append, List.length_cons]
  rw [rle_encode_loop_run_post n' n' b post le_rfl hpost]
  omega

/-- Witness for C2 (amended): a run of five `65` bytes between the
non-repeating bytes `1` and `2` contributes `3` output bytes. -/
theorem run_cost_witness :
    (rle_encode ([1] ++ (List.replicate 5 65 ++ [2]))).length =
      [1].length + (1 + 2 * ((5 - 1 + 255) / 256)) + [2].length :=
  run_cost [1] [2] 5 65 (by omega)
    (List.chain'_pair.mpr (by omega)) (List.chain'_pair.mpr (by omega))

/-! ## Flash write callback and the save orchestrator -/

/-- One `jshFlashWrite(&word, addr, 4)` call: the four bytes of the
32-bit value `val` are written at the word-aligned byte address `addr`
(covering byte addresses `addr` to `addr + 3`). -/
structure WEvent where
  addr : Nat
  val : Nat
deriving DecidableEq, Repr

/-- The `uint32_t cbdata[3]` state threaded through
`jsfSaveToFlash_writecb`: `cbdata[0]` = `endAddr` (end of available
flash), `cbdata[1]` = `addr` (the byte-address write cursor), `cbdata[2]`
= `word` (the 4-byte accumulator). -/
structure WState where
  endAddr : Nat
  addr : Nat
  word : Nat
deriving DecidableEq, Repr

/-- The callback `jsfSaveToFlash_writecb` (src/jswrap_flash.c lines 196-207,
`#ifndef LINUX`).  Only if the cursor is below the end address is the
byte shifted into the top of the accumulator
(`cbdata[2] = (uint32_t)(ch<<24) | (cbdata[2]>>8)`, 32-bit arithmetic)
and, when additionally the low two bits of the cursor equal 3, the
accumulator written to the enclosing word-aligned address
(`cbdata[1] & ~3`, i.e. `addr - addr % 4`).  The cursor is incremented on
every invocation regardless.  The console progress dot (every 1024th
byte) does not affect the state and is not modelled.  Returns the new
state and the flash writes issued (none or one). -/
def jsfSaveToFlash_writecb (ch : Nat) (s : WState) : WState × List WEvent :=
  if s.addr < s.endAddr then
    if s.addr % 4 = 3 then
      (⟨s.endAddr, s.addr + 1, (ch % 256) * 2 ^ 24 + (s.word % 2 ^ 32) / 2 ^ 8⟩,
        [⟨s.addr - s.addr % 4, (ch % 256) * 2 ^ 24 + (s.word % 2 ^ 32) / 2 ^ 8⟩])
    else
      (⟨s.endAddr, s.addr + 1, (ch % 256) * 2 ^ 24 + (s.word % 2 ^ 32) / 2 ^ 8⟩, [])
  else
    (⟨s.endAddr, s.addr + 1, s.word⟩, [])

/-- Feeding a list of bytes one at a time through
`jsfSaveToFlash_writecb`, in order, as `rle_encode` does with its push
callback; returns the final state and all flash writes issued. -/
def runWrites : List Nat → WState → WState × List WEvent
  | [], s => (s, [])
  | ch :: rest, s =>
    ((runWrites rest (jsfSaveToFlash_writecb ch s).1).1,
      (jsfSaveToFlash_writecb ch s).2 ++ (runWrites rest (jsfSaveToFlash_writecb ch s).1).2)

/-- Result of the write phase of `jsfSaveToFlash`: all `jshFlashWrite`
calls in order, whether the save succeeded (the overflow check
`cbData[1] >= cbData[0]` did not fire), and the `endOfData` cursor value
recorded after encoding. -/
structure SaveResult where
  writes : List WEvent
  ok : Bool
  endOfData : Nat
deriving DecidableEq, Repr

/-- The write phase of `jsfSaveToFlash` (src/jswrap_flash.c lines
292-330, `#ifndef LINUX`), parameterised by `regionStart`
(`FLASH_SAVED_CODE_START`), `markerAddress` (`FLASH_MAGIC_LOCATION`),
`magic` (`FLASH_MAGIC`) and the heap bytes.  The cursor starts at
`rleStart = regionStart + 4` (the header word is reserved), the heap
bytes are streamed through `rle_encode` into `jsfSaveToFlash_writecb`,
`endOfData` is the cursor value after encoding, three further zero bytes
force-flush the accumulator, and then the overflow check compares the
post-flush cursor against the end address.  On success the `endOfData`
header word is written at `regionStart` and the magic marker at
`markerAddress`, in that order.  The page-erase phase before this issues
no `jshFlashWrite` calls, and the verification pass
(`jsfSaveToFlash_checkcb`) only reads flash, so neither contributes
write events. -/
def jsfSaveToFlash (regionStart markerAddress magic : Nat) (heap : List Nat) : SaveResult :=
  let r1 := runWrites (rle_encode heap) ⟨markerAddress, regionStart + 4, 0⟩
  let r2 := runWrites [0, 0, 0] r1.1
  if r2.1.endAddr ≤ r2.1.addr then
    ⟨r1.2 ++ r2.2, false, r1.1.addr⟩
  else
    ⟨r1.2 ++ r2.2 ++ [⟨regionStart, r1.1.addr⟩, ⟨markerAddress, magic⟩], true, r1.1.addr⟩

/-! ## Bookkeeping lemmas for the write callback -/

lemma writecb_fst_addr (ch : Nat) (s : WState) :
    (jsfSaveToFlash_writecb ch s).1.addr = s.addr + 1 := by
  by_cases h1 : s.addr < s.endAddr <;> by_cases h2 : s.addr % 4 = 3 <;>
    simp [jsfSaveToFlash_writecb, h1, h2]

lemma writecb_fst_endAddr (ch : Nat) (s : WState) :
    (jsfSaveToFlash_writecb ch s).1.endAddr = s.endAddr := by
  by_cases h1 : s.addr < s.endAddr <;> by_cases h2 : s.addr % 4 = 3 <;>
    simp [jsfSaveToFlash_writecb, h1, h2]

lemma writecb_snd_bounds (ch : Nat) (s : WState) (ev : WEvent)
    (hev : ev ∈ (jsfSaveToFlash_writecb ch s).2) :
    s.addr ≤ ev.addr + 3 ∧ ev.addr + 3 < s.endAddr ∧ ev.addr % 4 = 0 := by
  by_cases h1 : s.addr < s.endAddr
  · by_cases h2 : s.addr % 4 = 3
    · simp only [jsfSaveToFlash_writecb, if_pos h1, if_pos h2, List.mem_singleton] at hev
      subst hev
      dsimp only
      omega
    · simp [jsfSaveToFlash_writecb, if_pos h1, if_neg h2] at hev
  · simp [jsfSaveToFlash_writecb, if_neg h1] at hev

/-! ## Bookkeeping lemmas for sequences of callback invocations -/

lemma runWrites_fst_endAddr :
    ∀ (bs : List Nat) (s : WState), (runWrites bs s).1.endAddr = s.endAddr := by
  intro bs
  induction bs with
  | nil => intro s; rfl
  | cons ch rest ih =>
    intro s
    simp only [runWrites]
    rw [ih, writecb_fst_endAddr]

lemma runWrites_fst_addr :
    ∀ (bs : List Nat) (s : WState), (runWrites bs s).1.addr = s.addr + bs.length := by
  intro bs
  induction bs with
  | nil => intro s; rfl
  | cons ch rest ih =>
    intro s
    simp only [runWrites, List.length_cons]
    rw [ih, writecb_fst_addr]
    omega

lemma runWrites_snd_bounds :
    ∀ (bs : List Nat) (s : WState) (ev : WEvent), ev ∈ (runWrites bs s).2 →
      s.addr ≤ ev.addr + 3 ∧ ev.addr + 3 < s.endAddr ∧ ev.addr % 4 = 0 := by
  intro bs
  induction bs with
  | nil =>
    intro s ev hev
    simp [runWrites] at hev
  | cons ch rest ih =>
    intro s ev hev
    simp only [runWrites, List.mem_append] at hev
    rcases hev with hev | hev
    · exact writecb_snd_bounds ch s ev hev
    · have h := ih (jsfSaveToFlash_writecb ch s).1 ev hev
      rw [writecb_fst_addr, writecb_fst_endAddr] at h
      omega

/-! ## The outcome of the save write phase -/

lemma jsfSaveToFlash_eq_of_overflow (r M g : Nat) (heap : List Nat)
    (h : M ≤ r + 4 + (rle_encode heap).length + 3) :
    jsfSaveToFlash r M g heap =
      ⟨(runWrites (rle_encode heap) ⟨M, r + 4, 0⟩).2 ++
          (runWrites [0, 0, 0] (runWrites (rle_encode heap) ⟨M, r + 4, 0⟩).1).2,
        false, (runWrites (rle_encode heap) ⟨M, r + 4, 0⟩).1.addr⟩ := by
  have hcond : (runWrites [0, 0, 0]
        (runWrites (rle_encode heap) ⟨M, r + 4, 0⟩).1).1.endAddr ≤
      (runWrites [0, 0, 0] (runWrites (rle_encode heap) ⟨M, r + 4, 0⟩).1).1.addr := by
    simp only [runWrites_fst_endAddr, runWrites_fst_addr, List.length_cons,
      List.length_nil]
    omega
  simp only [jsfSaveToFlash]
  rw [if_pos hcond]

lemma jsfSaveToFlash_eq_of_fit (r M g : Nat) (heap : List Nat)
    (h : r + 4 + (rle_encode heap).length + 3 < M) :
    jsfSaveToFlash r M g heap =
      ⟨(runWrites (rle_encode heap) ⟨M, r + 4, 0⟩).2 ++
          (runWrites [0, 0, 0] (runWrites (rle_encode heap) ⟨M, r + 4, 0⟩).1).2 ++
          [⟨r, (runWrites (rle_encode heap) ⟨M, r + 4, 0⟩).1.addr⟩, ⟨M, g⟩],
        true, (runWrites (rle_encode heap) ⟨M, r + 4, 0⟩).1.addr⟩ := by
  have hcond : ¬ ((runWrites [0, 0, 0]
        (runWrites (rle_encode heap) ⟨M, r + 4, 0⟩).1).1.endAddr ≤
      (runWrites [0, 0, 0] (runWrites (rle_encode heap) ⟨M, r + 4, 0⟩).1).1.addr) := by
    simp only [runWrites_fst_endAddr, runWrites_fst_addr, List.length_cons,
      List.length_nil]
    omega
  simp only [jsfSaveToFlash]
  rw [if_neg hcond]

/-- C5: Whenever the final write-cursor after the force-flush is at or
beyond `markerAddress` (the cursor after encoding plus the three flush
bytes, i.e. `regionStart + 4 + encodedLength + 3`), `jsfSaveToFlash`
takes the error branch (modelled by `ok = false`, the branch that prints
the overflow report) and issues no flash write at the header address
`regionStart` or at the marker address `markerAddress`: every write of
the run touches only byte addresses strictly between them. -/
theorem save_overflow_aborts (regionStart markerAddress magic : Nat) (heap : List Nat)
    (h : markerAddress ≤ regionStart + 4 + (rle_encode heap).length + 3) :
    (jsfSaveToFlash regionStart markerAddress magic heap).ok = false ∧
    ∀ ev ∈ (jsfSaveToFlash regionStart markerAddress magic heap).writes,
      regionStart < ev.addr ∧ ev.addr + 3 < markerAddress := by
  rw [jsfSaveToFlash_eq_of_overflow regionStart markerAddress magic heap h]
  refine ⟨rfl, ?_⟩
  intro ev hev
  simp only [List.mem_append] at hev
  rcases hev with hev | hev
  · have h3 := runWrites_snd_bounds _ _ ev hev
    dsimp only at h3
    omega
  · have h3 := runWrites_snd_bounds _ _ ev hev
    rw [runWrites_fst_addr, runWrites_fst_endAddr] at h3
    dsimp only at h3
    omega

/-- Witness for C5: saving five incompressible bytes into a region of
four available payload bytes (`regionStart = 0`, `markerAddress = 8`)
fails. -/
theorem save_overflow_aborts_witness :
    (jsfSaveToFlash 0 8 0 [1, 2, 3, 4, 5]).ok = false :=
  (save_overflow_aborts 0 8 0 [1, 2, 3, 4, 5]
    (by simp [rle_encode, rle_encode_loop, runLen])).1

/-- C3, counterexample: with `regionStart = 0` and `markerAddress = 12`,
the claimed maximal compressed payload is `12 - 0 - 4 = 8` bytes.  The
eight-byte heap `[1,...,8]` has no repeats, so its compressed size is
exactly 8 and the compressed data would end exactly at `markerAddress`;
the claim says such a save succeeds, but `jsfSaveToFlash` rejects it: the
three force-flush callback invocations advance the cursor to
`markerAddress + 3` before the overflow check `cbData[1] >= cbData[0]`. -/
theorem save_capacity_cex :
    (rle_encode [1, 2, 3, 4, 5, 6, 7, 8]).length = 12 - 0 - 4 ∧
    (jsfSaveToFlash 0 12 0 [1, 2, 3, 4, 5, 6, 7, 8]).ok = false := by
  have henc : rle_encode [1, 2, 3, 4, 5, 6, 7, 8] = [1, 2, 3, 4, 5, 6, 7, 8] := by
    simp [rle_encode, rle_encode_loop, runLen]
  constructor
  · rw [henc]
    decide
  · simp only [jsfSaveToFlash, henc]
    decide

/-- C3, amended: a save succeeds — takes the success branch and writes
the 4-byte `endOfData` header at `regionStart` and the marker at
`markerAddress` — if and only if
`regionStart + 4 + compressedSize + 3 < markerAddress`, i.e. the largest
compressed payload that fits is `markerAddress - regionStart - 8` bytes
(the three force-flush bytes advance the cursor past the data end before
the overflow check).  Any larger payload — in particular one of size
`markerAddress - regionStart - 4`, which the original claim says
succeeds — fails, and then no write is issued at `regionStart` or at
`markerAddress`, leaving header and marker unwritten. -/
theorem save_capacity_boundary (r M magic : Nat) (heap : List Nat) :
    ((jsfSaveToFlash r M magic heap).ok = true ↔
      r + 4 + (rle_encode heap).length + 3 < M) ∧
    ((jsfSaveToFlash r M magic heap).ok = true →
      (⟨r, (jsfSaveToFlash r M magic heap).endOfData⟩ : WEvent) ∈
          (jsfSaveToFlash r M magic heap).writes ∧
      (⟨M, magic⟩ : WEvent) ∈ (jsfSaveToFlash r M magic heap).writes) ∧
    ((jsfSaveToFlash r M magic heap).ok = false →
      ∀ ev ∈ (jsfSaveToFlash r M magic heap).writes, ev.addr ≠ r ∧ ev.addr ≠ M) := by
  by_cases h : r + 4 + (rle_encode heap).length + 3 < M
  · rw [jsfSaveToFlash_eq_of_fit r M magic heap h]
    refine ⟨by simpa using h, ?_, ?_⟩
    · intro _
      constructor
      · simp
      · simp
    · intro hfalse
      exact absurd hfalse (by simp)
  · rw [jsfSaveToFlash_eq_of_overflow r M magic heap (by omega)]
    refine ⟨by simpa using h, ?_, ?_⟩
    · intro htrue
      exact absurd htrue (by simp)
    · intro _ ev hev
      simp only [List.mem_append] at hev
      rcases hev with hev | hev
      · have h3 := runWrites_snd_bounds _ _ ev hev
        dsimp only at h3
        omega
      · have h3 := runWrites_snd_bounds _ _ ev hev
        rw [runWrites_fst_addr, runWrites_fst_endAddr] at h3
        dsimp only at h3
        omega

/-- Witness for C3 (amended), instantiating the success criterion at a
three-byte heap in a 32-byte region. -/
theorem save_capacity_boundary_witness :
    (jsfSaveToFlash 0 32 7 [1, 2, 3]).ok = true ↔
      0 + 4 + (rle_encode [1, 2, 3]).length + 3 < 32 :=
  (save_capacity_boundary 0 32 7 [1, 2, 3]).1

/-- C7, counterexample: the claim is unconditional over invocations, but
the accumulator update and the flush are guarded by `cbdata[1] <
cbdata[0]` in the code.  At the state with end address 8, cursor 11 and
accumulator 5, an invocation with byte `0xFF` leaves the accumulator
unchanged and issues no flash write even though the low two bits of the
cursor equal 3; the claim predicts accumulator
`(0xFF << 24) | (5 >> 8)` and a write. -/
theorem writecb_claim_cex :
    jsfSaveToFlash_writecb 255 ⟨8, 11, 5⟩ = (⟨8, 12, 5⟩, []) ∧
    (11 : Nat) % 4 = 3 ∧
    (5 : Nat) ≠ 255 % 256 * 2 ^ 24 + 5 % 2 ^ 32 / 2 ^ 8 := by
  refine ⟨by decide, by decide, by decide⟩

/-- C7, amended: on every invocation of `jsfSaveToFlash_writecb` the
address counter increments by exactly 1 and the end address is
unchanged; *when the cursor is below the end address*, the accumulator
becomes `(ch << 24) | (old >> 8)` (the newest byte in the
most-significant position) and a 4-byte flash write of the new
accumulator to the enclosing word-aligned address occurs exactly when
the low two bits of the counter equal 3; when the cursor has reached the
end address, the accumulator is unchanged and no write occurs. -/
theorem writecb_step (ch : Nat) (s : WState) :
    (jsfSaveToFlash_writecb ch s).1.addr = s.addr + 1 ∧
    (jsfSaveToFlash_writecb ch s).1.endAddr = s.endAddr ∧
    (s.addr < s.endAddr →
      (jsfSaveToFlash_writecb ch s).1.word =
        (ch % 256) * 2 ^ 24 + (s.word % 2 ^ 32) / 2 ^ 8 ∧
      (jsfSaveToFlash_writecb ch s).2 =
        (if s.addr % 4 = 3 then
          [⟨s.addr - s.addr % 4, (ch % 256) * 2 ^ 24 + (s.word % 2 ^ 32) / 2 ^ 8⟩]
        else [])) ∧
    (s.endAddr ≤ s.addr →
      (jsfSaveToFlash_writecb ch s).1.word = s.word ∧
      (jsfSaveToFlash_writecb ch s).2 = []) := by
  by_cases h1 : s.addr < s.endAddr <;> by_cases h2 : s.addr % 4 = 3 <;>
    simp [jsfSaveToFlash_writecb, h1, h2]

/-- Witness for C7 (amended) at byte 1 and state
`endAddr = 100, addr = 3, word = 0`. -/
theorem writecb_step_witness :
    (jsfSaveToFlash_writecb 1 ⟨100, 3, 0⟩).1.addr = 3 + 1 ∧
    (jsfSaveToFlash_writecb 1 ⟨100, 3, 0⟩).1.endAddr = 100 :=
  ⟨(writecb_step 1 ⟨100, 3, 0⟩).1, (writecb_step 1 ⟨100, 3, 0⟩).2.1⟩

/-- C8: for every sequence of bytes fed to `jsfSaveToFlash_writecb`
starting from a cursor at `regionStart + 4` with end address
`markerAddress` (and any initial accumulator), no flash write ever
touches a byte address at or beyond `markerAddress` — every 4-byte write
covers `ev.addr .. ev.addr + 3` with `ev.addr + 3 < markerAddress` —
while the cursor always advances by exactly one per invocation, and so
keeps advancing even after it reaches the end address and writes are
suppressed. -/
theorem writecb_never_past_marker (bs : List Nat) (regionStart markerAddress w : Nat)
    (ev : WEvent)
    (hev : ev ∈ (runWrites bs ⟨markerAddress, regionStart + 4, w⟩).2) :
    ev.addr + 3 < markerAddress ∧
    (runWrites bs ⟨markerAddress, regionStart + 4, w⟩).1.addr =
      regionStart + 4 + bs.length := by
  constructor
  · exact (runWrites_snd_bounds bs _ ev hev).2.1
  · exact runWrites_fst_addr bs _

/-- Witness for C8: the four bytes `[1, 2, 3, 4]` written from cursor 4
with end address 100 produce exactly one flash write, of the accumulated
word `0x04030201` at address 4, and `4 + 3 < 100`. -/
theorem writecb_never_past_marker_witness :
    (⟨4, 67305985⟩ : WEvent).addr + 3 < 100 ∧
    (runWrites [1, 2, 3, 4] ⟨100, 0 + 4, 0⟩).1.addr = 0 + 4 + [1, 2, 3, 4].length :=
  writecb_never_past_marker [1, 2, 3, 4] 0 100 0 ⟨4, 67305985⟩ (by decide)

/-! ## The load path -/

/-- A 4-byte `jshFlashRead(&x, a, 4)` into a 32-bit value, from a flash
modelled as a byte map (values taken mod 256), assembled little-endian
as on the STM32 target. -/
def readWord (flash : Nat → Nat) (a : Nat) : Nat :=
  flash a % 256 + 2 ^ 8 * (flash (a + 1) % 256) + 2 ^ 16 * (flash (a + 2) % 256) +
    2 ^ 24 * (flash (a + 3) % 256)

/-- The presence check `jsfFlashContainsCode` (src/jswrap_flash.c lines 369-379, flash
branch): read the 4-byte value at `FLASH_MAGIC_LOCATION`
(`markerAddress`) and compare it with `FLASH_MAGIC` (`magic`). -/
def jsfFlashContainsCode (flash : Nat → Nat) (markerAddress magic : Nat) : Bool :=
  readWord flash markerAddress == magic

/-- The load orchestrator `jsfLoadFromFlash` (src/jswrap_flash.c lines 334-367, flash branch).
If `jsfFlashContainsCode` fails the function prints "No code in flash!"
and returns without touching the heap (modelled as `none`).  Otherwise
it reads the `endOfData` header at `regionStart`
(`FLASH_SAVED_CODE_START`), sets the read cursor to `regionStart + 4`,
and streams flash bytes through `rle_decode` via
`jsfLoadFromFlash_readcb`, which returns the byte at the cursor while
`cursor < endOfData` and `-1` afterwards; the decoded bytes are written
sequentially into the heap from its base address (modelled as `some` of
the written byte sequence). -/
def jsfLoadFromFlash (flash : Nat → Nat) (regionStart markerAddress magic : Nat) :
    Option (List Nat) :=
  if jsfFlashContainsCode flash markerAddress magic then
    some (rle_decode (intStream
      ((List.range (readWord flash regionStart - (regionStart + 4))).map
        (fun i => flash (regionStart + 4 + i) % 256))))
  else
    none

/-- C9: if the presence check fails — the 4-byte value at
`markerAddress` differs from the marker constant — then
`jsfLoadFromFlash` returns having written no byte of the heap region
(the error branch that reports "No code in flash!"). -/
theorem load_no_marker_no_write (flash : Nat → Nat)
    (regionStart markerAddress magic : Nat)
    (h : readWord flash markerAddress ≠ magic) :
    jsfLoadFromFlash flash regionStart markerAddress magic = none := by
  have hcc : jsfFlashContainsCode flash markerAddress magic = false := by
    simp [jsfFlashContainsCode, h]
  simp [jsfLoadFromFlash, hcc]

/-- Witness for C9 on an all-zero flash with a nonzero marker constant. -/
theorem load_no_marker_no_write_witness :
    jsfLoadFromFlash (fun _ => 0) 0 16 1 = none :=
  load_no_marker_no_write (fun _ => 0) 0 16 1 (by decide)

/-- A corrupted snapshot: the header at address 0 declares
`endOfData = 7`, the three compressed bytes at addresses 4..6 are
`[5, 5, 255]`, and the marker word at address 16 reads back as 66. -/
def corruptFlash : Nat → Nat :=
  fun a => if a = 16 then 66 else [7, 0, 0, 0, 5, 5, 255].getD a 0

/-- C4 fails on the code: `rle_decode` writes through its output pointer
with no bound whatsoever, and `jsfLoadFromFlash` passes it the heap base
address without a length.  On `corruptFlash` (marker valid, three
compressed bytes `[5, 5, 255]`) the load writes 257 bytes into the heap
region, regardless of how small the declared heap byte length is — for
any heap smaller than 257 bytes the write overruns it. -/
theorem load_overruns_heap :
    jsfLoadFromFlash corruptFlash 0 16 66 =
      some (5 :: 5 :: List.replicate 255 5) ∧
    (5 :: 5 :: List.replicate 255 5).length = 257 := by
  constructor
  · decide
  · decide
